import Mathlib

/-!
Verification of the Merkle certificate blockchain
(`src/merkle_certificate_blockchain.py`) against its specification.

The Python source is shallowly embedded here:

* `sha : String → String` is an abstract parameter standing for
  `sha256(x).hexdigest()`; byte strings are modelled as `String`.
* Python dicts are modelled as insertion-ordered association lists
  (`Obj`), and `canonical` mirrors
  `json.dumps(obj, sort_keys=True, separators=(',', ':')).encode()`
  including its ASCII escaping of string values.
* The `while` loops of `merkle_layers` and `proof_of_work` are embedded
  with explicit fuel; fuel-adequacy lemmas show the fuel used by the
  wrappers is sufficient.
* Python list indexing (including negative indices, raising `IndexError`
  out of range) is modelled by `pyGet : List String → Int → Option String`.
-/

namespace MCB

/-! ### Canonical JSON encoding
Model of `json.dumps(obj, sort_keys=True, separators=(',', ':'))` with its
default `ensure_ascii=True` escaping: printable ASCII except `"` and `\`
is emitted raw, the usual two-character escapes are used for
`\" \\ \n \r \t \b \f`, every other char is `\uXXXX` (with a UTF-16
surrogate pair for codepoints above 0xFFFF), hex digits lowercase. -/

def hexDigit (n : Nat) : Char :=
  if n < 10 then Char.ofNat (48 + n) else Char.ofNat (87 + n)

def toHex4 (n : Nat) : List Char :=
  [hexDigit (n / 4096 % 16), hexDigit (n / 256 % 16), hexDigit (n / 16 % 16), hexDigit (n % 16)]

def escChar (c : Char) : List Char :=
  if c = '"' then ['\\', '"']
  else if c = '\\' then ['\\', '\\']
  else if c = '\n' then ['\\', 'n']
  else if c = '\r' then ['\\', 'r']
  else if c = '\t' then ['\\', 't']
  else if c = '\x08' then ['\\', 'b']
  else if c = '\x0c' then ['\\', 'f']
  else if c.toNat < 32 ∨ 127 ≤ c.toNat then
    if c.toNat < 65536 then '\\' :: 'u' :: toHex4 c.toNat
    else ('\\' :: 'u' :: toHex4 (55296 + (c.toNat - 65536) / 1024)) ++
         ('\\' :: 'u' :: toHex4 (56320 + (c.toNat - 65536) % 1024))
  else [c]

def escList : List Char → List Char
  | [] => []
  | c :: r => escChar c ++ escList r

/-- JSON string literal: `"` + escaped content + `"`. -/
def jstr (s : String) : String :=
  "\"" ++ String.mk (escList s.data) ++ "\""

/-- Decimal digits of a natural number, most significant first, with fuel
(the fuel `n + 1` used by `natDec` always suffices). -/
def natDecFuel : Nat → Nat → List Char
  | 0, _ => []
  | fuel + 1, n => if n < 10 then [hexDigit n] else natDecFuel fuel (n / 10) ++ [hexDigit (n % 10)]

def natDec (n : Nat) : List Char := natDecFuel (n + 1) n

/-- Decimal representation of an integer, as `json.dumps` prints Python ints. -/
def intDec (i : Int) : List Char :=
  if i < 0 then '-' :: natDec (-i).toNat else natDec i.toNat

/-- JSON value: the certificate dicts of this program hold only strings and
integers. -/
inductive JVal where
  | str (s : String)
  | int (i : Int)
deriving DecidableEq

/-- A Python dict, modelled as its insertion-ordered key/value list. -/
abbrev Obj := List (String × JVal)

def encVal : JVal → String
  | .str s => jstr s
  | .int i => String.mk (intDec i)

def encItem (p : String × JVal) : String := jstr p.1 ++ ":" ++ encVal p.2

def encItems : List (String × JVal) → String
  | [] => ""
  | [p] => encItem p
  | p :: q :: rest => encItem p ++ "," ++ encItems (q :: rest)

/-- Code-point lexicographic comparison of char lists: exactly how Python
compares the (string) keys when sorting dict items. -/
def charListLe : List Char → List Char → Bool
  | [], _ => true
  | _ :: _, [] => false
  | a :: as, b :: bs =>
    if a.toNat < b.toNat then true
    else if b.toNat < a.toNat then false
    else charListLe as bs

def strLe (a b : String) : Bool := charListLe a.data b.data

def keyLe (a b : String × JVal) : Prop := strLe a.1 b.1 = true

instance : DecidableRel keyLe := fun a b => inferInstanceAs (Decidable (strLe a.1 b.1 = true))

instance : IsTotal (String × JVal) keyLe :=
  ⟨by
    intro a b
    show strLe a.1 b.1 = true ∨ strLe b.1 a.1 = true
    unfold strLe
    generalize a.1.data = x
    generalize b.1.data = y
    induction x generalizing y with
    | nil => exact Or.inl rfl
    | cons c cs ih =>
      cases y with
      | nil => exact Or.inr rfl
      | cons d ds =>
        rcases Nat.lt_trichotomy c.toNat d.toNat with h | h | h
        · exact Or.inl (by simp [charListLe, h])
        · have h1 : ¬ c.toNat < d.toNat := by omega
          have h2 : ¬ d.toNat < c.toNat := by omega
          rcases ih ds with hl | hr
          · exact Or.inl (by simp [charListLe, h1, h2, hl])
          · exact Or.inr (by simp [charListLe, h1, h2, hr])
        · exact Or.inr (by simp [charListLe, h])⟩

instance : IsTrans (String × JVal) keyLe :=
  ⟨by
    intro a b c
    show strLe a.1 b.1 = true → strLe b.1 c.1 = true → strLe a.1 c.1 = true
    unfold strLe
    generalize a.1.data = x
    generalize b.1.data = y
    generalize c.1.data = z
    induction x generalizing y z with
    | nil => intro _ _; rfl
    | cons p ps ih =>
      cases y with
      | nil => intro h; simp [charListLe] at h
      | cons q qs =>
        cases z with
        | nil => intro _ h; simp [charListLe] at h
        | cons r rs =>
          intro h1 h2
          simp only [charListLe] at h1 h2 ⊢
          by_cases hpq : p.toNat < q.toNat
          · by_cases hqr : q.toNat < r.toNat
            · simp [show p.toNat < r.toNat by omega]
            · by_cases hrq : r.toNat < q.toNat
              · simp [hqr, hrq] at h2
              · simp [show p.toNat < r.toNat by omega]
          · by_cases hqp : q.toNat < p.toNat
            · simp [hpq, hqp] at h1
            · by_cases hqr : q.toNat < r.toNat
              · simp [show p.toNat < r.toNat by omega]
              · by_cases hrq : r.toNat < q.toNat
                · simp [hqr, hrq] at h2
                · have hpr : ¬ p.toNat < r.toNat := by omega
                  have hrp : ¬ r.toNat < p.toNat := by omega
                  rw [if_neg hpq, if_neg hqp] at h1
                  rw [if_neg hqr, if_neg hrq] at h2
                  rw [if_neg hpr, if_neg hrp]
                  exact ih qs rs h1 h2⟩

/-- The `sort_keys=True` ordering of a dict's items (a stable sort by key;
dict keys are unique, so any sort by key agrees with `sorted`). -/
def sortByKey (o : Obj) : Obj := List.insertionSort keyLe o

/-- Model of `canonical(obj)` from the source, for a dict argument. -/
def canonical (o : Obj) : String := "\x7b" ++ encItems (sortByKey o) ++ "\x7d"

/-- The dict built by `Blockchain.add_transaction`, in its insertion order. -/
def mkTx (student_id name course grade : String) (issued_at : Int) : Obj :=
  [("student_id", .str student_id), ("name", .str name), ("course", .str course),
   ("grade", .str grade), ("issued_at", .int issued_at)]

/-! ### Merkle tree (`merkle_layers`, `merkle_root`, `merkle_proof`,
`verify_merkle_proof`) -/

/-- Leaf digests: `[sha256(canonical(x)) for x in items] or [sha256(b'')]`. -/
def leavesOf (sha : String → String) (items : List Obj) : List String :=
  match items with
  | [] => [sha ""]
  | _ => items.map (fun x => sha (canonical x))

/-- Duplicate the last element when the layer has odd length:
`prev + [prev[-1]]`. -/
def padEven (layer : List String) : List String :=
  if layer.length % 2 = 1 then layer ++ [layer.getLastD ""] else layer

/-- Pairwise combination `sha256((a + b).encode())` over an even-length
layer, as the `for i in range(0, len(prev), 2)` loop does. -/
def combinePairs (sha : String → String) : List String → List String
  | a :: b :: rest => sha (a ++ b) :: combinePairs sha rest
  | _ => []

/-- The `while len(layers[-1]) > 1` loop of `merkle_layers`, with fuel.
Each iteration at least halves the layer, so fuel `length` suffices
(`buildLayersAux_fuel_irrel`). -/
def buildLayersAux (sha : String → String) : Nat → List String → List (List String)
  | 0, layer => [layer]
  | fuel + 1, layer =>
    if layer.length ≤ 1 then [layer]
    else layer :: buildLayersAux sha fuel (combinePairs sha (padEven layer))

def merkle_layers (sha : String → String) (items : List Obj) : List (List String) :=
  buildLayersAux sha (leavesOf sha items).length (leavesOf sha items)

/-- `merkle_layers(items)[-1][0]`. -/
def merkle_root (sha : String → String) (items : List Obj) : String :=
  ((merkle_layers sha items).getLastD []).headD ""

/-- Effective position of Python index `i` in a list of length `len`:
negative indices count from the end. -/
def pyIndex (len : Nat) (i : Int) : Int := if i < 0 then (len : Int) + i else i

/-- Python list indexing `l[i]`: negative indices count from the end;
out of range raises `IndexError`, modelled as `none`. -/
def pyGet (l : List String) (i : Int) : Option String :=
  if h : 0 ≤ pyIndex l.length i ∧ (pyIndex l.length i).toNat < l.length
  then some (l.get ⟨(pyIndex l.length i).toNat, h.2⟩) else none

/-- Python `idx ^ 1` on an arbitrary int (two's complement `xor` with 1
flips the last bit: `+1` when even, `-1` when odd; `%` is `Int.emod`,
which is non-negative for positive modulus, so this matches negatives). -/
def xorOne (i : Int) : Int := if i % 2 = 0 then i + 1 else i - 1

/-- The `for layer in layers[:-1]` loop of `merkle_proof`. -/
def proofLoop (sha : String → String) : List (List String) → Int → Option (List (String × String))
  | [], _ => some []
  | layer :: rest, idx =>
    let l := padEven layer
    let s := xorOne idx
    match pyGet l s with
    | none => none
    | some sib =>
      match proofLoop sha rest (Int.fdiv idx 2) with
      | none => none
      | some p => some ((sib, if s < idx then "L" else "R") :: p)

/-- `merkle_proof(items, index)`: `none` models the `IndexError` the Python
raises when a sibling access is out of range. -/
def merkle_proof (sha : String → String) (items : List Obj) (index : Int) :
    Option (List (String × String)) :=
  proofLoop sha (merkle_layers sha items).dropLast index

/-- The `for sibling_hash, direction in proof` loop of
`verify_merkle_proof`: any direction tag other than the exact string
`"L"` takes the `else` (right) branch. -/
def foldDigest (sha : String → String) : List (String × String) → String → String
  | [], h => h
  | p :: rest, h => foldDigest sha rest (if p.2 = "L" then sha (p.1 ++ h) else sha (h ++ p.1))

def verify_merkle_proof (sha : String → String) (leaf : Obj)
    (proof : List (String × String)) (root : String) : Bool :=
  decide (foldDigest sha proof (sha (canonical leaf)) = root)

/-! ### Block and Blockchain -/

def DIFFICULTY : Nat := 3

/-- A `Block`. `timestamp` is kept as the JSON number token the float
`time.time()` value serializes to: the claims never inspect it. -/
structure Block where
  index : Int
  transactions : List Obj
  timestamp : String
  previous_hash : String
  nonce : Int
  merkle_root : String
  hash : String
deriving DecidableEq

instance : Inhabited Block := ⟨⟨0, [], "", "", 0, "", ""⟩⟩

/-- `Block.compute_hash`: `sha256(canonical(obj))` for the dict
`{index, transactions, timestamp, previous_hash, nonce, merkle_root}`.
The keys are written here in the order `sort_keys=True` produces
(`index < merkle_root < nonce < previous_hash < timestamp < transactions`
lexicographically), with the nested `transactions` list of dicts encoded
element-wise by `canonical`. -/
def compute_hash (sha : String → String) (b : Block) : String :=
  sha ("\x7b\"index\":" ++ String.mk (intDec b.index) ++
       ",\"merkle_root\":" ++ jstr b.merkle_root ++
       ",\"nonce\":" ++ String.mk (intDec b.nonce) ++
       ",\"previous_hash\":" ++ jstr b.previous_hash ++
       ",\"timestamp\":" ++ b.timestamp ++
       ",\"transactions\":[" ++ String.intercalate "," (b.transactions.map canonical) ++ "]\x7d")

/-- `Block.__init__`: stores the fields, computes `merkle_root` from the
transactions once, then seals `hash = compute_hash()`. -/
def Block.make (sha : String → String) (index : Int) (transactions : List Obj)
    (timestamp : String) (previous_hash : String) (nonce : Int) : Block :=
  let b0 : Block :=
    { index := index, transactions := transactions, timestamp := timestamp,
      previous_hash := previous_hash, nonce := nonce,
      merkle_root := MCB.merkle_root sha transactions, hash := "" }
  { b0 with hash := compute_hash sha b0 }

/-- Model of `"0" * difficulty`. -/
def zeros (difficulty : Nat) : String := String.mk (List.replicate difficulty '0')

/-- Model of Python `str.startswith`. -/
def strStartsWith (s pre : String) : Bool := pre.data.isPrefixOf s.data

/-- The `while not block.hash.startswith(target)` loop of
`Blockchain.proof_of_work`, with fuel: `none` means the search is still
running after `fuel` nonce increments. -/
def proof_of_work (sha : String → String) (difficulty : Nat) : Nat → Block → Option Block
  | fuel, b =>
    if strStartsWith b.hash (zeros difficulty) then some b
    else
      match fuel with
      | 0 => none
      | fuel + 1 =>
        let b1 : Block := { b with nonce := b.nonce + 1 }
        proof_of_work sha difficulty fuel { b1 with hash := compute_hash sha b1 }

/-- The `Blockchain` state: difficulty, pending pool, chain, and the chain
content last written by `save_chain` (the persistence gateway). -/
structure Blockchain where
  difficulty : Nat
  unconfirmed_transactions : List Obj
  chain : List Block
  persisted : List Block
deriving DecidableEq

/-- `Blockchain.create_genesis`: `Block(0, [], time.time(), "0", nonce=0)`
followed by `save_chain()`. -/
def create_genesis (sha : String → String) (ts : String) (st : Blockchain) : Blockchain :=
  let g := Block.make sha 0 [] ts "0" 0
  { st with chain := [g], persisted := [g] }

/-- The duplicate test of `add_transaction`:
`t["student_id"] == student_id and t["course"] == course`. -/
def txMatches (t : Obj) (student_id course : String) : Bool :=
  decide ((t.find? (fun p => p.1 == "student_id")).map Prod.snd = some (JVal.str student_id)
    ∧ (t.find? (fun p => p.1 == "course")).map Prod.snd = some (JVal.str course))

/-- `Blockchain.add_transaction`: rejects (no mutation) when a pending tx
matches on `(student_id, course)`, else appends the new tx. -/
def add_transaction (sid name course grade : String) (now : Int) (st : Blockchain) :
    Bool × Blockchain :=
  let tx := mkTx sid name course grade now
  if st.unconfirmed_transactions.any (fun t => txMatches t sid course) then (false, st)
  else (true, { st with unconfirmed_transactions := st.unconfirmed_transactions ++ [tx] })

/-- `Blockchain.last_block`: `self.chain[-1]` (callers guarantee the chain
is non-empty). -/
def last_block (st : Blockchain) : Block := st.chain.getLastD default

/-- The result of `Blockchain.mine`: `(False, None)` on an empty pool,
a sealed block on success; `outOfFuel` means proof-of-work is still
searching (no Python counterpart: the loop just keeps running). -/
inductive MineResult where
  | noPending
  | outOfFuel
  | mined (b : Block)
deriving DecidableEq

/-- `Blockchain.mine`: on success appends the sealed block, clears the
pending pool and saves the chain. -/
def mine (sha : String → String) (fuel : Nat) (ts : String) (st : Blockchain) :
    MineResult × Blockchain :=
  if st.unconfirmed_transactions = [] then (.noPending, st)
  else
    let last := last_block st
    let nb := Block.make sha (last.index + 1) st.unconfirmed_transactions ts last.hash 0
    match proof_of_work sha st.difficulty fuel nb with
    | none => (.outOfFuel, st)
    | some sealed =>
      (.mined sealed,
        { st with chain := st.chain ++ [sealed], unconfirmed_transactions := [],
                  persisted := st.chain ++ [sealed] })

/-- States reachable from a fresh start (`load_chain` with no stored file
runs `create_genesis`) by any sequence of `add_transaction` and `mine`. -/
inductive Reachable (sha : String → String) : Blockchain → Prop
  | genesis (d : Nat) (ts : String) :
      Reachable sha (create_genesis sha ts ⟨d, [], [], []⟩)
  | submit {st} (sid name course grade : String) (now : Int) :
      Reachable sha st → Reachable sha (add_transaction sid name course grade now st).2
  | mineStep {st} (fuel : Nat) (ts : String) :
      Reachable sha st → Reachable sha (mine sha fuel ts st).2

/-! ### Concrete instances used by witnesses and counterexamples -/

/-- A concrete injective stand-in hash used to instantiate witnesses. -/
def toySha (s : String) : String := "#" ++ s

/-- A small concrete record. -/
def oRec : Obj := [("a", .str "b")]

def txS1 : Obj := mkTx "S1" "Alice" "Math" "A" 10
def txS2 : Obj := mkTx "S2" "Bob" "Math" "B" 11
def txS3 : Obj := mkTx "S3" "Cara" "Physics" "C" 12

/-- A fresh ledger at difficulty 0 (so `toySha` mines instantly) with one
pending certificate. -/
def st0 : Blockchain :=
  (add_transaction "S1" "Alice" "Math" "A" 10 (create_genesis toySha "0" ⟨0, [], [], []⟩)).2

/-- The state after mining `st0`. -/
def st1 : Blockchain := (mine toySha 0 "1" st0).2

/-- The block mined from `st0`. -/
def minedB : Block :=
  match (mine toySha 0 "1" st0).1 with
  | .mined b => b
  | _ => default


/-! ### Decoders used to prove the canonical encoding injective
These are verification tools (left inverses of the escape and decimal
encoders), not part of the source program. -/

def hexVal (c : Char) : Nat :=
  if c.toNat ≤ 57 then c.toNat - 48 else c.toNat - 87

def fromHex4 (h1 h2 h3 h4 : Char) : Nat :=
  ((hexVal h1 * 16 + hexVal h2) * 16 + hexVal h3) * 16 + hexVal h4

def consFst (c : Char) (p : List Char × List Char) : List Char × List Char :=
  (c :: p.1, p.2)

def decodeEsc (e : Char) : Option Char :=
  if e = '"' then some '"'
  else if e = '\\' then some '\\'
  else if e = 'n' then some '\n'
  else if e = 'r' then some '\r'
  else if e = 't' then some '\t'
  else if e = 'b' then some '\x08'
  else if e = 'f' then some '\x0c'
  else none

/-- Parse the escaped content of a JSON string up to its closing quote,
returning the decoded characters and the input after the quote (with fuel,
so that it unfolds definitionally; fuel beyond the content length is
irrelevant). -/
def decodeStr : Nat → List Char → Option (List Char × List Char)
  | 0, _ => none
  | _ + 1, [] => none
  | fuel + 1, c :: r =>
    if c = '"' then some ([], r)
    else if c = '\\' then
      match r with
      | [] => none
      | e :: r2 =>
        if e = 'u' then
          match r2 with
          | h1 :: h2 :: h3 :: h4 :: r3 =>
            if 55296 ≤ fromHex4 h1 h2 h3 h4 ∧ fromHex4 h1 h2 h3 h4 < 56320 then
              match r3 with
              | b1 :: b2 :: g1 :: g2 :: g3 :: g4 :: r4 =>
                if b1 = '\\' ∧ b2 = 'u' ∧ 56320 ≤ fromHex4 g1 g2 g3 g4 ∧
                    fromHex4 g1 g2 g3 g4 < 57344 then
                  (decodeStr fuel r4).map (consFst (Char.ofNat (65536 +
                    (fromHex4 h1 h2 h3 h4 - 55296) * 1024 + (fromHex4 g1 g2 g3 g4 - 56320))))
                else none
              | _ => none
            else (decodeStr fuel r3).map (consFst (Char.ofNat (fromHex4 h1 h2 h3 h4)))
          | _ => none
        else
          match decodeEsc e with
          | some c2 => (decodeStr fuel r2).map (consFst c2)
          | none => none
    else (decodeStr fuel r).map (consFst c)

/-- Value of a most-significant-first decimal digit list. -/
def decValAux (acc : Nat) : List Char → Nat
  | [] => acc
  | c :: r => decValAux (acc * 10 + hexVal c) r

/-! ### Structural lemmas about the Merkle layer construction -/

theorem combinePairs_length (sha : String → String) :
    ∀ l : List String, (combinePairs sha l).length = l.length / 2
  | [] => by simp [combinePairs]
  | [_] => by simp [combinePairs]
  | _ :: _ :: rest => by
    simp only [combinePairs, List.length_cons, combinePairs_length sha rest]
    omega

theorem combinePairs_get (sha : String → String) :
    ∀ (l : List String) (k : Nat) (h1 : 2 * k + 1 < l.length)
      (hk : k < (combinePairs sha l).length),
      (combinePairs sha l).get ⟨k, hk⟩ =
        sha (l.get ⟨2 * k, by omega⟩ ++ l.get ⟨2 * k + 1, h1⟩)
  | a :: b :: rest, 0, _, _ => rfl
  | a :: b :: rest, k + 1, h1, hk => by
    have h1r : 2 * k + 1 < rest.length := by simp at h1; omega
    have hkr : k < (combinePairs sha rest).length := by
      simpa [combinePairs] using hk
    have := combinePairs_get sha rest k h1r hkr
    simp only [combinePairs]
    show (combinePairs sha rest).get ⟨k, hkr⟩ = _
    rw [this]
    rfl

theorem padEven_length (l : List String) :
    (padEven l).length = if l.length % 2 = 1 then l.length + 1 else l.length := by
  unfold padEven
  split <;> simp

theorem padEven_length_even (l : List String) : (padEven l).length % 2 = 0 := by
  rw [padEven_length]
  split <;> omega

theorem padEven_get (l : List String) (k : Nat) (h : k < l.length)
    (h2 : k < (padEven l).length) : (padEven l).get ⟨k, h2⟩ = l.get ⟨k, h⟩ := by
  simp only [List.get_eq_getElem]
  by_cases hodd : l.length % 2 = 1
  · simp only [padEven, if_pos hodd]
    exact List.getElem_append_left h
  · simp only [padEven, if_neg hodd]

theorem buildLayersAux_ne_nil (sha : String → String) (fuel : Nat) (layer : List String) :
    buildLayersAux sha fuel layer ≠ [] := by
  cases fuel with
  | zero => simp [buildLayersAux]
  | succ f =>
    unfold buildLayersAux
    split <;> simp

theorem buildLayersAux_fuel_irrel (sha : String → String) :
    ∀ (f1 f2 : Nat) (layer : List String), layer.length ≤ f1 + 1 → layer.length ≤ f2 + 1 →
      buildLayersAux sha f1 layer = buildLayersAux sha f2 layer := by
  intro f1
  induction f1 with
  | zero =>
    intro f2 layer h1 h2
    cases f2 with
    | zero => rfl
    | succ g =>
      unfold buildLayersAux
      rw [if_pos h1]
  | succ f ih =>
    intro f2 layer h1 h2
    by_cases hs : layer.length ≤ 1
    · cases f2 with
      | zero =>
        unfold buildLayersAux
        rw [if_pos hs]
      | succ g =>
        unfold buildLayersAux
        rw [if_pos hs, if_pos hs]
    · have hlen : 2 ≤ layer.length := by omega
      have hf2 : 1 ≤ f2 := by omega
      obtain ⟨g, rfl⟩ : ∃ g, f2 = g + 1 := ⟨f2 - 1, by omega⟩
      have hnext : (combinePairs sha (padEven layer)).length ≤ layer.length - 1 := by
        rw [combinePairs_length, padEven_length]
        split <;> omega
      unfold buildLayersAux
      rw [if_neg hs, if_neg hs]
      rw [ih g (combinePairs sha (padEven layer)) (by omega) (by omega)]

theorem dropLast_cons_ne (a : List String) (l : List (List String)) (h : l ≠ []) :
    (a :: l).dropLast = a :: l.dropLast := by
  cases l with
  | nil => exact absurd rfl h
  | cons b t => rfl

theorem getLastD_irrel {α : Type} (l : List α) (d₁ d₂ : α) (h : l ≠ []) :
    l.getLastD d₁ = l.getLastD d₂ := by
  cases l with
  | nil => exact absurd rfl h
  | cons a t =>
    rw [List.getLastD_cons, List.getLastD_cons]

theorem get_congr_nat {α : Type} (l : List α) (i j : Nat) (hi : i < l.length)
    (hj : j < l.length) (h : i = j) : l.get ⟨i, hi⟩ = l.get ⟨j, hj⟩ := by
  subst h
  rfl

theorem fdiv_two_natCast (n : Nat) : Int.fdiv (n : Int) 2 = ((n / 2 : Nat) : Int) := by
  cases n with
  | zero => rfl
  | succ m => rfl

theorem foldDigest_cons (sha : String → String) (p : String × String)
    (rest : List (String × String)) (h : String) :
    foldDigest sha (p :: rest) h =
      foldDigest sha rest (if p.2 = "L" then sha (p.1 ++ h) else sha (h ++ p.1)) := rfl

theorem proofLoop_cons (sha : String → String) (layer : List String)
    (rest : List (List String)) (idx : Int) (sib : String)
    (hsib : pyGet (padEven layer) (xorOne idx) = some sib)
    (p : List (String × String)) (hp : proofLoop sha rest (Int.fdiv idx 2) = some p) :
    proofLoop sha (layer :: rest) idx =
      some ((sib, if xorOne idx < idx then "L" else "R") :: p) := by
  simp only [proofLoop]
  rw [hsib, hp]

theorem proofLoop_cons_err (sha : String → String) (layer : List String)
    (rest : List (List String)) (idx : Int)
    (hsib : pyGet (padEven layer) (xorOne idx) = none) :
    proofLoop sha (layer :: rest) idx = none := by
  simp only [proofLoop]
  rw [hsib]

theorem emod_two_natCast (n : Nat) : (n : Int) % 2 = ((n % 2 : Nat) : Int) := by
  omega

theorem pyGet_natCast (l : List String) (k : Nat) (hk : k < l.length) :
    pyGet l (k : Int) = some (l.get ⟨k, hk⟩) := by
  have hidx : pyIndex l.length (k : Int) = (k : Int) := by
    unfold pyIndex
    rw [if_neg (by omega)]
  unfold pyGet
  rw [dif_pos (by rw [hidx]; constructor <;> omega)]
  exact congrArg some (get_congr_nat l _ k (by rw [hidx]; omega) hk (by simp [hidx]))

theorem pyGet_oob (l : List String) (k : Nat) (hk : l.length ≤ k) :
    pyGet l (k : Int) = none := by
  have hidx : pyIndex l.length (k : Int) = (k : Int) := by
    unfold pyIndex
    rw [if_neg (by omega)]
  unfold pyGet
  rw [dif_neg]
  rw [hidx]
  intro ⟨_, hlt⟩
  omega

/-- Invariant of the `merkle_proof` loop: starting at a valid index of any
layer, the loop produces a proof that folds the layer entry back to the
root of the remaining construction. -/
theorem proofLoop_spec (sha : String → String) :
    ∀ (fuel : Nat) (layer : List String) (n : Nat), layer.length ≤ fuel + 1 →
      ∀ (hn : n < layer.length),
      ∃ p, proofLoop sha (buildLayersAux sha fuel layer).dropLast (n : Int) = some p ∧
        foldDigest sha p (layer.get ⟨n, hn⟩) =
          ((buildLayersAux sha fuel layer).getLastD []).headD "" := by
  intro fuel
  induction fuel with
  | zero =>
    intro layer n hf hn
    have h1 : layer.length = 1 := by omega
    obtain ⟨x, rfl⟩ := List.length_eq_one.mp h1
    have hn0 : n = 0 := by omega
    subst hn0
    exact ⟨[], rfl, rfl⟩
  | succ fuel ih =>
    intro layer n hf hn
    by_cases hs : layer.length ≤ 1
    · have h1 : layer.length = 1 := by omega
      obtain ⟨x, rfl⟩ := List.length_eq_one.mp h1
      have hn0 : n = 0 := by omega
      subst hn0
      refine ⟨[], ?_, ?_⟩
      · show proofLoop sha ([[x]] : List (List String)).dropLast 0 = some []
        rfl
      · show foldDigest sha [] x = (([[x]] : List (List String)).getLastD []).headD ""
        rfl
    · have hlen : 2 ≤ layer.length := by omega
      set L := padEven layer with hL
      set nxt := combinePairs sha L with hnxt
      have hbuild : buildLayersAux sha (fuel + 1) layer = layer :: buildLayersAux sha fuel nxt := by
        simp only [buildLayersAux]
        rw [if_neg hs]
      have hLlen1 : layer.length ≤ L.length := by
        rw [hL, padEven_length]
        split <;> omega
      have hLlen2 : L.length ≤ layer.length + 1 := by
        rw [hL, padEven_length]
        split <;> omega
      have hLeven : L.length % 2 = 0 := padEven_length_even layer
      have hnxtlen : nxt.length = L.length / 2 := by
        rw [hnxt, combinePairs_length]
      -- the sibling index inside the padded layer
      set sib : Nat := if n % 2 = 0 then n + 1 else n - 1 with hsib
      have hsiblt : sib < L.length := by
        rw [hsib]
        split <;> omega
      have hxor : xorOne (n : Int) = (sib : Int) := by
        unfold xorOne
        by_cases h0 : n % 2 = 0
        · rw [if_pos (show ((n : Nat) : Int) % 2 = 0 by omega), hsib, if_pos h0]
          omega
        · rw [if_neg (show ¬ ((n : Nat) : Int) % 2 = 0 by omega), hsib, if_neg h0]
          omega
      have hget : pyGet L ((sib : Nat) : Int) = some (L.get ⟨sib, hsiblt⟩) :=
        pyGet_natCast L sib hsiblt
      have hrest_ne : buildLayersAux sha fuel nxt ≠ [] := buildLayersAux_ne_nil sha fuel nxt
      have hdrop : (layer :: buildLayersAux sha fuel nxt).dropLast =
          layer :: (buildLayersAux sha fuel nxt).dropLast :=
        dropLast_cons_ne layer _ hrest_ne
      have hn2 : n / 2 < nxt.length := by omega
      have hfuel2 : nxt.length ≤ fuel + 1 := by omega
      obtain ⟨p, hp, hfold⟩ := ih nxt (n / 2) hfuel2 hn2
      have hcomb : nxt.get ⟨n / 2, hn2⟩ =
          sha (L.get ⟨2 * (n / 2), by omega⟩ ++ L.get ⟨2 * (n / 2) + 1, by omega⟩) :=
        combinePairs_get sha L (n / 2) (by omega) hn2
      have hnL : n < L.length := by omega
      have hpad : L.get ⟨n, hnL⟩ = layer.get ⟨n, hn⟩ := padEven_get layer n hn hnL
      -- the step the verifier takes equals the next layer entry
      have hstep :
          (if (if ((sib : Nat) : Int) < ((n : Nat) : Int) then "L" else "R") = "L"
            then sha (L.get ⟨sib, hsiblt⟩ ++ layer.get ⟨n, hn⟩)
            else sha (layer.get ⟨n, hn⟩ ++ L.get ⟨sib, hsiblt⟩)) = nxt.get ⟨n / 2, hn2⟩ := by
        by_cases h0 : n % 2 = 0
        · have hsibval : sib = n + 1 := by rw [hsib, if_pos h0]
          have hlt : ¬ (((sib : Nat) : Int) < ((n : Nat) : Int)) := by omega
          have e1 : L.get ⟨2 * (n / 2), by omega⟩ = layer.get ⟨n, hn⟩ :=
            (get_congr_nat L (2 * (n / 2)) n (by omega) hnL (by omega)).trans hpad
          have e2 : L.get ⟨2 * (n / 2) + 1, by omega⟩ = L.get ⟨sib, hsiblt⟩ :=
            get_congr_nat L (2 * (n / 2) + 1) sib (by omega) hsiblt (by omega)
          rw [if_neg hlt, if_neg (by simp), hcomb, e1, e2]
        · have h1 : n % 2 = 1 := by omega
          have hsibval : sib = n - 1 := by rw [hsib, if_neg (by omega)]
          have hlt : (((sib : Nat) : Int) < ((n : Nat) : Int)) := by omega
          have e1 : L.get ⟨2 * (n / 2), by omega⟩ = L.get ⟨sib, hsiblt⟩ :=
            get_congr_nat L (2 * (n / 2)) sib (by omega) hsiblt (by omega)
          have e2 : L.get ⟨2 * (n / 2) + 1, by omega⟩ = layer.get ⟨n, hn⟩ :=
            (get_congr_nat L (2 * (n / 2) + 1) n (by omega) hnL (by omega)).trans hpad
          rw [if_pos hlt, if_pos rfl, hcomb, e1, e2]
      have hloop : proofLoop sha (layer :: (buildLayersAux sha fuel nxt).dropLast)
          ((n : Nat) : Int) =
          some ((L.get ⟨sib, hsiblt⟩,
            if xorOne ((n : Nat) : Int) < ((n : Nat) : Int) then "L" else "R") :: p) := by
        refine proofLoop_cons sha layer _ _ _ ?_ p ?_
        · rw [← hL, hxor]
          exact hget
        · rw [fdiv_two_natCast n]
          exact hp
      refine ⟨(L.get ⟨sib, hsiblt⟩,
        if xorOne ((n : Nat) : Int) < ((n : Nat) : Int) then "L" else "R") :: p, ?_, ?_⟩
      · rw [hbuild, hdrop]
        exact hloop
      · rw [foldDigest_cons]
        rw [show (if xorOne ((n : Nat) : Int) < ((n : Nat) : Int) then "L" else "R") =
          (if ((sib : Nat) : Int) < ((n : Nat) : Int) then "L" else "R") by rw [hxor]]
        rw [hstep, hfold, hbuild]
        rw [List.getLastD_cons, getLastD_irrel _ layer [] hrest_ne]

theorem leavesOf_ne_nil (sha : String → String) (items : List Obj) (h : items ≠ []) :
    leavesOf sha items = items.map (fun x => sha (canonical x)) := by
  cases items with
  | nil => exact absurd rfl h
  | cons a t => rfl

theorem leavesOf_length (sha : String → String) (items : List Obj) (h : items ≠ []) :
    (leavesOf sha items).length = items.length := by
  rw [leavesOf_ne_nil sha items h]
  simp

/-- C1: Merkle round-trip: for every non-empty record sequence and every
valid leaf index i, `merkle_proof` succeeds and
`verify_merkle_proof(records[i], proof, merkle_root(records))` is true. -/
theorem merkle_roundtrip (sha : String → String) (items : List Obj) (i : Nat)
    (hi : i < items.length) :
    ∃ p, merkle_proof sha items ((i : Nat) : Int) = some p ∧
      verify_merkle_proof sha (items.get ⟨i, hi⟩) p (merkle_root sha items) = true := by
  have hne : items ≠ [] := by
    intro h
    subst h
    simp at hi
  have hleaves := leavesOf_ne_nil sha items hne
  have hlen := leavesOf_length sha items hne
  have hi2 : i < (leavesOf sha items).length := by omega
  obtain ⟨p, hp, hfold⟩ :=
    proofLoop_spec sha (leavesOf sha items).length (leavesOf sha items) i (by omega) hi2
  refine ⟨p, hp, ?_⟩
  have hstart : sha (canonical (items.get ⟨i, hi⟩)) = (leavesOf sha items).get ⟨i, hi2⟩ := by
    simp only [hleaves, List.get_eq_getElem, List.getElem_map]
  unfold verify_merkle_proof
  rw [hstart, hfold]
  exact decide_eq_true rfl

/-- Witness for the round-trip theorem at a concrete three-record list. -/
theorem merkle_roundtrip_witness :
    ∃ p, merkle_proof toySha [txS1, txS2, txS3] ((1 : Nat) : Int) = some p ∧
      verify_merkle_proof toySha ([txS1, txS2, txS3].get ⟨1, by decide⟩) p
        (merkle_root toySha [txS1, txS2, txS3]) = true :=
  merkle_roundtrip toySha [txS1, txS2, txS3] 1 (by decide)

theorem getLastD_map (f : Obj → String) :
    ∀ (l : List Obj) (d : Obj), l ≠ [] → (l.map f).getLastD "" = f (l.getLastD d)
  | [], _, h => absurd rfl h
  | [a], _, _ => rfl
  | a :: b :: t, d, _ => by
    rw [List.map_cons, List.getLastD_cons, List.getLastD_cons]
    exact getLastD_map f (b :: t) a (by simp)

/-- C3 counterexample: for a single record (odd length 1) the root is the
bare leaf digest, while duplicating the record makes the root the digest
of the concatenated pair, so the two roots differ. -/
theorem merkle_root_dup_fails_at_one :
    merkle_root toySha [oRec] ≠ merkle_root toySha [oRec, oRec] := by decide

/-- C3 amended: for every record sequence of odd length at least 3 (the
padding rule never fires on a single-leaf layer, where the loop does not
run), the root equals the root of the sequence with its final record
appended once more. -/
theorem merkle_root_odd_duplicate (sha : String → String) (items : List Obj)
    (hodd : items.length % 2 = 1) (h3 : 3 ≤ items.length) :
    merkle_root sha items = merkle_root sha (items ++ [items.getLastD []]) := by
  have hne : items ≠ [] := by
    intro h
    subst h
    simp at h3
  have hne2 : items ++ [items.getLastD []] ≠ [] := by simp
  set L := leavesOf sha items with hLdef
  have hL : L = items.map (fun x => sha (canonical x)) := leavesOf_ne_nil sha items hne
  have hLlen : L.length = items.length := leavesOf_length sha items hne
  have hlast : L.getLastD "" = sha (canonical (items.getLastD [])) := by
    rw [hL]
    exact getLastD_map (fun x => sha (canonical x)) items [] hne
  have hL2 : leavesOf sha (items ++ [items.getLastD []]) = L ++ [L.getLastD ""] := by
    rw [leavesOf_ne_nil sha _ hne2, List.map_append, hlast, hL]
    simp
  have hpad : padEven L = L ++ [L.getLastD ""] := by
    unfold padEven
    rw [if_pos (by omega)]
  have hL2len : (L ++ [L.getLastD ""]).length = L.length + 1 := by simp
  -- peel one step off each side
  obtain ⟨m, hm⟩ : ∃ m, L.length = m + 3 := ⟨L.length - 3, by omega⟩
  have hstep1 : buildLayersAux sha L.length L =
      L :: buildLayersAux sha (m + 2) (combinePairs sha (padEven L)) := by
    rw [hm]
    simp only [buildLayersAux]
    rw [if_neg (by omega)]
  have hpad2 : padEven (L ++ [L.getLastD ""]) = L ++ [L.getLastD ""] := by
    unfold padEven
    rw [if_neg (by omega)]
  have hstep2 : buildLayersAux sha (L ++ [L.getLastD ""]).length (L ++ [L.getLastD ""]) =
      (L ++ [L.getLastD ""]) :: buildLayersAux sha (m + 3) (combinePairs sha (padEven L)) := by
    rw [hL2len, hm]
    simp only [buildLayersAux]
    rw [if_neg (by omega), hpad2, ← hpad]
  have hXlen : (combinePairs sha (padEven L)).length = (m + 4) / 2 := by
    rw [combinePairs_length, hpad, hL2len, hm]
  have hfuel : buildLayersAux sha (m + 2) (combinePairs sha (padEven L)) =
      buildLayersAux sha (m + 3) (combinePairs sha (padEven L)) :=
    buildLayersAux_fuel_irrel sha (m + 2) (m + 3) _ (by omega) (by omega)
  have hrest_ne : buildLayersAux sha (m + 2) (combinePairs sha (padEven L)) ≠ [] :=
    buildLayersAux_ne_nil sha _ _
  unfold merkle_root merkle_layers
  rw [← hLdef, hL2, hL2len]
  rw [show buildLayersAux sha L.length L =
    L :: buildLayersAux sha (m + 2) (combinePairs sha (padEven L)) from hstep1]
  rw [show buildLayersAux sha (L.length + 1) (L ++ [L.getLastD ""]) =
    (L ++ [L.getLastD ""]) :: buildLayersAux sha (m + 3) (combinePairs sha (padEven L)) by
      rw [← hL2len]
      exact hstep2]
  rw [List.getLastD_cons, List.getLastD_cons, ← hfuel]
  rw [getLastD_irrel _ L [] hrest_ne, getLastD_irrel _ (L ++ [L.getLastD ""]) [] hrest_ne]

/-- Witness for the amended odd-length padding theorem at three records. -/
theorem merkle_root_odd_duplicate_witness :
    merkle_root toySha [txS1, txS2, txS3] =
      merkle_root toySha ([txS1, txS2, txS3] ++ [[txS1, txS2, txS3].getLastD []]) :=
  merkle_root_odd_duplicate toySha [txS1, txS2, txS3] (by decide) (by decide)

theorem xorOne_natCast (k : Nat) :
    xorOne ((k : Nat) : Int) = (((if k % 2 = 0 then k + 1 else k - 1) : Nat) : Int) := by
  unfold xorOne
  by_cases h0 : k % 2 = 0
  · rw [if_pos (show ((k : Nat) : Int) % 2 = 0 by omega), if_pos h0]
    omega
  · rw [if_neg (show ¬ ((k : Nat) : Int) % 2 = 0 by omega), if_neg h0]
    omega

/-- C9 counterexample: `merkle_proof` does not fail fast on every
out-of-range index. For three records, index 3 (equal to the length, the
duplicate-padding slot) returns a proof, and the negative index -1 is
accepted by Python indexing and also returns a proof. -/
theorem merkle_proof_oob_counterexample :
    (merkle_proof toySha [txS1, txS2, txS3] 3).isSome = true ∧
    (merkle_proof toySha [txS1, txS2, txS3] (-1)).isSome = true := by constructor <;> decide

/-- C9 amended: the `IndexError` is only guaranteed for a non-negative
index at or beyond the padded leaf count (the record count rounded up to
even) when there are at least two records; index = length on an odd-length
sequence, negative indices down to -length, and every index on a
single-record sequence instead return a proof. -/
theorem merkle_proof_oob (sha : String → String) (items : List Obj) (k : Nat)
    (h2 : 2 ≤ items.length)
    (hk : (if items.length % 2 = 1 then items.length + 1 else items.length) ≤ k) :
    merkle_proof sha items ((k : Nat) : Int) = none := by
  have hne : items ≠ [] := by
    intro h
    subst h
    simp at h2
  have hlen := leavesOf_length sha items hne
  set L := leavesOf sha items with hLdef
  have hpadlen : (padEven L).length = if L.length % 2 = 1 then L.length + 1 else L.length :=
    padEven_length L
  have hpadk : (padEven L).length ≤ k := by
    rw [hpadlen, hlen]
    by_cases ho : items.length % 2 = 1
    · rw [if_pos ho]
      rw [if_pos ho] at hk
      omega
    · rw [if_neg ho]
      rw [if_neg ho] at hk
      omega
  have hpadeven : (padEven L).length % 2 = 0 := padEven_length_even L
  obtain ⟨m, hm⟩ : ∃ m, L.length = m + 2 := ⟨L.length - 2, by omega⟩
  have hstep : buildLayersAux sha L.length L =
      L :: buildLayersAux sha (m + 1) (combinePairs sha (padEven L)) := by
    rw [hm]
    simp only [buildLayersAux]
    rw [if_neg (by omega)]
  have hrest_ne : buildLayersAux sha (m + 1) (combinePairs sha (padEven L)) ≠ [] :=
    buildLayersAux_ne_nil sha _ _
  unfold merkle_proof merkle_layers
  rw [← hLdef, hstep, dropLast_cons_ne L _ hrest_ne]
  apply proofLoop_cons_err
  rw [xorOne_natCast k]
  apply pyGet_oob
  by_cases hk0 : k % 2 = 0
  · rw [if_pos hk0]
    omega
  · rw [if_neg hk0]
    omega

/-- Witness for the amended out-of-range theorem: two records, index 2. -/
theorem merkle_proof_oob_witness :
    merkle_proof toySha [txS1, txS2] ((2 : Nat) : Int) = none :=
  merkle_proof_oob toySha [txS1, txS2] 2 (by decide) (by decide)

theorem foldDigest_tag_congr (sha : String → String) :
    ∀ {p q : List (String × String)},
      List.Forall₂ (fun a b => a.1 = b.1 ∧ (a.2 = "L" ↔ b.2 = "L")) p q →
      ∀ s, foldDigest sha p s = foldDigest sha q s := by
  intro p q h
  induction h with
  | nil => intro s; rfl
  | @cons a b p1 q1 hab htail ih =>
    intro s
    rw [foldDigest_cons, foldDigest_cons]
    obtain ⟨h1, h2⟩ := hab
    by_cases hL : a.2 = "L"
    · rw [if_pos hL, if_pos (h2.mp hL), h1, ih]
    · rw [if_neg hL, if_neg (fun hb => hL (h2.mpr hb)), h1, ih]

/-- C10: `verify_merkle_proof` never validates side tags: it only tests
each tag against the exact string "L", so replacing any tag by any other
string on the same side of that test (in particular any non-"L" string
for "R") leaves the verification result unchanged, and proofs whose tags
are outside {L, R} can still verify. -/
theorem verify_tag_insensitive (sha : String → String) (leaf : Obj) (root : String)
    (p q : List (String × String))
    (h : List.Forall₂ (fun a b => a.1 = b.1 ∧ (a.2 = "L" ↔ b.2 = "L")) p q) :
    verify_merkle_proof sha leaf p root = verify_merkle_proof sha leaf q root := by
  unfold verify_merkle_proof
  rw [foldDigest_tag_congr sha h]

/-- Witness for tag insensitivity: a proof tagged "X" (outside {L, R})
verifies exactly like the same proof tagged "R", and both verify true
against the root they recompute. -/
theorem verify_tag_insensitive_witness :
    verify_merkle_proof toySha oRec [("s", "X")] (toySha (toySha (canonical oRec) ++ "s")) =
      verify_merkle_proof toySha oRec [("s", "R")] (toySha (toySha (canonical oRec) ++ "s")) ∧
    verify_merkle_proof toySha oRec [("s", "X")] (toySha (toySha (canonical oRec) ++ "s")) = true :=
  ⟨verify_tag_insensitive toySha oRec (toySha (toySha (canonical oRec) ++ "s"))
      [("s", "X")] [("s", "R")]
      (List.Forall₂.cons ⟨rfl, by simp⟩ List.Forall₂.nil),
    by decide⟩

/-! ### Proof-of-work and mining -/

/-- The proof-of-work loop only touches `nonce` and `hash`; whenever it
returns a block, that block meets the difficulty target, and its stored
hash is its recomputed hash provided the input block satisfied that same
invariant (as every freshly constructed `Block` does). -/
theorem pow_spec (sha : String → String) (d : Nat) :
    ∀ (fuel : Nat) (b b2 : Block), proof_of_work sha d fuel b = some b2 →
      strStartsWith b2.hash (zeros d) = true ∧
      (b.hash = compute_hash sha b → b2.hash = compute_hash sha b2) ∧
      b2.index = b.index ∧ b2.transactions = b.transactions ∧
      b2.previous_hash = b.previous_hash ∧ b2.merkle_root = b.merkle_root ∧
      b2.timestamp = b.timestamp := by
  intro fuel
  induction fuel with
  | zero =>
    intro b b2 h
    unfold proof_of_work at h
    by_cases hs : strStartsWith b.hash (zeros d) = true
    · rw [if_pos hs] at h
      injection h with h
      subst h
      exact ⟨hs, fun hi => hi, rfl, rfl, rfl, rfl, rfl⟩
    · rw [if_neg hs] at h
      exact absurd h (by simp)
  | succ f ih =>
    intro b b2 h
    unfold proof_of_work at h
    by_cases hs : strStartsWith b.hash (zeros d) = true
    · rw [if_pos hs] at h
      injection h with h
      subst h
      exact ⟨hs, fun hi => hi, rfl, rfl, rfl, rfl, rfl⟩
    · rw [if_neg hs] at h
      obtain ⟨h1, h2, h3, h4, h5, h6, h7⟩ := ih _ b2 h
      exact ⟨h1, fun _ => h2 rfl, h3, h4, h5, h6, h7⟩

theorem Block.make_hash_inv (sha : String → String) (i : Int) (t : List Obj)
    (ts ph : String) (n : Int) :
    (Block.make sha i t ts ph n).hash = compute_hash sha (Block.make sha i t ts ph n) := rfl

/-- Full behaviour of `mine` on each of its three outcomes. -/
theorem mine_spec_aux (sha : String → String) (fuel : Nat) (ts : String) (st : Blockchain) :
    (st.unconfirmed_transactions = [] → mine sha fuel ts st = (MineResult.noPending, st)) ∧
    (st.unconfirmed_transactions ≠ [] → (mine sha fuel ts st).1 ≠ MineResult.noPending) ∧
    ((mine sha fuel ts st).1 = MineResult.outOfFuel → (mine sha fuel ts st).2 = st) ∧
    (∀ b, (mine sha fuel ts st).1 = MineResult.mined b →
      (mine sha fuel ts st).2 =
        { st with chain := st.chain ++ [b], unconfirmed_transactions := [],
                  persisted := st.chain ++ [b] } ∧
      b.index = (last_block st).index + 1 ∧
      b.previous_hash = (last_block st).hash ∧
      b.transactions = st.unconfirmed_transactions ∧
      b.merkle_root = merkle_root sha st.unconfirmed_transactions ∧
      b.timestamp = ts ∧
      strStartsWith b.hash (zeros st.difficulty) = true ∧
      b.hash = compute_hash sha b) := by
  by_cases hp : st.unconfirmed_transactions = []
  · refine ⟨fun _ => ?_, fun h => absurd hp h, ?_, ?_⟩
    · unfold mine
      rw [if_pos hp]
    · intro _
      unfold mine
      rw [if_pos hp]
    · intro b h
      unfold mine at h
      rw [if_pos hp] at h
      exact absurd h (by simp)
  · have hmine : mine sha fuel ts st =
        match proof_of_work sha st.difficulty fuel
          (Block.make sha ((last_block st).index + 1) st.unconfirmed_transactions ts
            (last_block st).hash 0) with
        | none => (MineResult.outOfFuel, st)
        | some sealed =>
          (MineResult.mined sealed,
            { st with chain := st.chain ++ [sealed], unconfirmed_transactions := [],
                      persisted := st.chain ++ [sealed] }) := by
      unfold mine
      rw [if_neg hp]
    refine ⟨fun h => absurd h hp, fun _ => ?_, ?_, ?_⟩
    · rw [hmine]
      cases proof_of_work sha st.difficulty fuel
        (Block.make sha ((last_block st).index + 1) st.unconfirmed_transactions ts
          (last_block st).hash 0) with
      | none => simp
      | some sealed => simp
    · intro h
      rw [hmine] at h ⊢
      cases hpow : proof_of_work sha st.difficulty fuel
        (Block.make sha ((last_block st).index + 1) st.unconfirmed_transactions ts
          (last_block st).hash 0) with
      | none => rfl
      | some sealed =>
        rw [hpow] at h
        simp at h
    · intro b h
      rw [hmine] at h ⊢
      cases hpow : proof_of_work sha st.difficulty fuel
        (Block.make sha ((last_block st).index + 1) st.unconfirmed_transactions ts
          (last_block st).hash 0) with
      | none =>
        rw [hpow] at h
        simp at h
      | some sealed =>
        rw [hpow] at h
        have hb : sealed = b := by simpa using h
        subst hb
        obtain ⟨h1, h2, h3, h4, h5, h6, h7⟩ := pow_spec sha st.difficulty fuel _ sealed hpow
        exact ⟨rfl, h3, h5, h4, h6, h7, h1, h2 (Block.make_hash_inv sha _ _ _ _ _)⟩

/-- C4: Mining validity: whenever `mine` succeeds, the resulting block's
hash starts with `difficulty` zero characters ("0" * difficulty), and
recomputing the digest of the canonical encoding of the mapping
{index, transactions, timestamp, previous_hash, nonce, merkle_root} from
the stored fields yields exactly the stored hash. -/
theorem mine_block_valid (sha : String → String) (fuel : Nat) (ts : String)
    (st : Blockchain) (b : Block) (hc : st.chain ≠ [])
    (h : (mine sha fuel ts st).1 = MineResult.mined b) :
    strStartsWith b.hash (zeros st.difficulty) = true ∧ b.hash = compute_hash sha b := by
  obtain ⟨-, -, -, hm⟩ := mine_spec_aux sha fuel ts st
  obtain ⟨-, -, -, -, -, -, h7, h8⟩ := hm b h
  exact ⟨h7, h8⟩

set_option maxRecDepth 200000

/-- Witness for mining validity: the block mined from `st0`. -/
theorem mine_block_valid_witness :
    strStartsWith minedB.hash (zeros st0.difficulty) = true ∧
      minedB.hash = compute_hash toySha minedB :=
  mine_block_valid toySha 0 "1" st0 minedB (by decide) rfl

/-- C5: `mine` fails leaving the state untouched exactly when the pending
pool is empty; on success it appends exactly one block, linked and
carrying the pending pool in submission order, clears the pool and
persists the new chain. -/
theorem mine_contract (sha : String → String) (fuel : Nat) (ts : String)
    (st : Blockchain) (hc : st.chain ≠ []) :
    (((mine sha fuel ts st).1 = MineResult.noPending ∧ (mine sha fuel ts st).2 = st) ↔
      st.unconfirmed_transactions = []) ∧
    (∀ b, (mine sha fuel ts st).1 = MineResult.mined b →
      (mine sha fuel ts st).2.chain = st.chain ++ [b] ∧
      b.index = (last_block st).index + 1 ∧
      b.previous_hash = (last_block st).hash ∧
      b.transactions = st.unconfirmed_transactions ∧
      (mine sha fuel ts st).2.unconfirmed_transactions = [] ∧
      (mine sha fuel ts st).2.persisted = (mine sha fuel ts st).2.chain) := by
  obtain ⟨ha, hb, hof, hm⟩ := mine_spec_aux sha fuel ts st
  constructor
  · constructor
    · intro ⟨h1, _⟩
      by_contra hne
      exact hb hne h1
    · intro hp
      rw [ha hp]
      exact ⟨rfl, rfl⟩
  · intro b h
    obtain ⟨hst, h2, h3, h4, -, -, -, -⟩ := hm b h
    rw [hst]
    exact ⟨rfl, h2, h3, h4, rfl, rfl⟩

/-- Witness for the mine contract: after mining, the pool is empty and a
further mine attempt reports no pending records and leaves the state
unchanged. -/
theorem mine_contract_witness :
    (mine toySha 1 "2" st1).1 = MineResult.noPending ∧ (mine toySha 1 "2" st1).2 = st1 := by
  have h := mine_contract toySha 1 "2" st1 (by decide)
  exact h.1.mpr (by decide)

theorem add_transaction_chain (sid name course grade : String) (now : Int) (st : Blockchain) :
    (add_transaction sid name course grade now st).2.chain = st.chain := by
  simp only [add_transaction]
  split <;> rfl

theorem headD_append (l : List Block) (b : Block) (h : l ≠ []) :
    (l ++ [b]).headD default = l.headD default := by
  cases l with
  | nil => exact absurd rfl h
  | cons a t => rfl

theorem getLastD_eq_get (l : List Block) (d : Block) (h : l ≠ [])
    (h2 : l.length - 1 < l.length) : l.getLastD d = l.get ⟨l.length - 1, h2⟩ := by
  rw [List.getLastD_eq_getLast?, List.getLast?_eq_getLast l h]
  simp [List.getLast_eq_getElem]

/-- C6: Chain linkage invariant: in every reachable state, the chain is a
non-empty list whose genesis block has previous_hash "0" and in which
every later block's previous_hash is the hash of its predecessor. -/
theorem chain_linkage (sha : String → String) (st : Blockchain) (h : Reachable sha st) :
    st.chain ≠ [] ∧ (st.chain.headD default).previous_hash = "0" ∧
    ∀ k, ∀ (hk : k + 1 < st.chain.length),
      (st.chain.get ⟨k + 1, hk⟩).previous_hash =
        (st.chain.get ⟨k, Nat.lt_of_succ_lt hk⟩).hash := by
  induction h with
  | genesis d ts =>
    refine ⟨by simp [create_genesis], rfl, ?_⟩
    intro k hk
    simp [create_genesis] at hk
  | @submit st sid name course grade now hprev ih =>
    rw [show (add_transaction sid name course grade now st).2.chain = st.chain from
      add_transaction_chain sid name course grade now st] at *
    exact ih
  | @mineStep st fuel ts hprev ih =>
    obtain ⟨ha, hb, hof, hm⟩ := mine_spec_aux sha fuel ts st
    by_cases hp : st.unconfirmed_transactions = []
    · rw [ha hp]
      exact ih
    · cases hres : (mine sha fuel ts st).1 with
      | noPending => exact absurd hres (hb hp)
      | outOfFuel =>
        rw [hof hres]
        exact ih
      | mined b =>
        obtain ⟨hst, -, h3, -, -, -, -, -⟩ := hm b hres
        rw [hst]
        obtain ⟨ihne, ihhead, ihlink⟩ := ih
        refine ⟨by simp, ?_, ?_⟩
        · show ((st.chain ++ [b]).headD default).previous_hash = "0"
          rw [headD_append st.chain b ihne]
          exact ihhead
        · intro k hk
          have hlen : (st.chain ++ [b]).length = st.chain.length + 1 := by simp
          have hk2 : k < st.chain.length := by
            simp only [List.length_append, List.length_cons, List.length_nil] at hk
            omega
          have e2 : (st.chain ++ [b]).get ⟨k, Nat.lt_of_succ_lt hk⟩ =
              st.chain.get ⟨k, hk2⟩ := by
            simp only [List.get_eq_getElem]
            exact List.getElem_append_left hk2
          by_cases hklt : k + 1 < st.chain.length
          · have e1 : (st.chain ++ [b]).get ⟨k + 1, hk⟩ = st.chain.get ⟨k + 1, hklt⟩ := by
              simp only [List.get_eq_getElem]
              exact List.getElem_append_left hklt
            rw [e1, e2]
            exact ihlink k hklt
          · have hke : k + 1 = st.chain.length := by omega
            have e1 : (st.chain ++ [b]).get ⟨k + 1, hk⟩ = b := by
              simp only [List.get_eq_getElem]
              rw [List.getElem_append_right (by omega)]
              simp [hke]
            rw [e1, e2, h3]
            unfold last_block
            rw [getLastD_eq_get st.chain default ihne (by omega)]
            rw [get_congr_nat st.chain (st.chain.length - 1) k (by omega) hk2 (by omega)]

/-- Witness for chain linkage: in the two-block chain of `st1`, the mined
block's previous_hash is the genesis hash. -/
theorem chain_linkage_witness :
    (st1.chain.get ⟨1, by decide⟩).previous_hash = (st1.chain.get ⟨0, by decide⟩).hash := by
  have h := chain_linkage toySha st1
    (Reachable.mineStep 0 "1"
      (Reachable.submit "S1" "Alice" "Math" "A" 10 (Reachable.genesis 0 "0")))
  exact h.2.2 0 (by decide)

/-- C7: Duplicate rejection is scoped to the pending pool: `add_transaction`
fails without mutation exactly when a pending record matches on
(student_id, course) (whatever its name and grade); otherwise it appends
the new record and succeeds; and right after a successful mine (which
clears the pool) the same pair is accepted again. -/
theorem add_transaction_contract (sha : String → String) (sid name course grade : String)
    (now : Int) (st : Blockchain) :
    (((add_transaction sid name course grade now st).1 = false ∧
        (add_transaction sid name course grade now st).2 = st) ↔
      ∃ t ∈ st.unconfirmed_transactions, txMatches t sid course = true) ∧
    ((add_transaction sid name course grade now st).1 = true →
      (add_transaction sid name course grade now st).2.unconfirmed_transactions =
        st.unconfirmed_transactions ++ [mkTx sid name course grade now] ∧
      (add_transaction sid name course grade now st).2.chain = st.chain) ∧
    (∀ fuel ts b, (mine sha fuel ts st).1 = MineResult.mined b →
      (add_transaction sid name course grade now (mine sha fuel ts st).2).1 = true) := by
  have hthird : ∀ fuel ts b, (mine sha fuel ts st).1 = MineResult.mined b →
      (add_transaction sid name course grade now (mine sha fuel ts st).2).1 = true := by
    intro fuel ts b h
    obtain ⟨-, -, -, hm⟩ := mine_spec_aux sha fuel ts st
    obtain ⟨hst, -, -, -, -, -, -, -⟩ := hm b h
    rw [hst]
    simp only [add_transaction]
    rw [if_neg (by simp)]
  by_cases hdup : st.unconfirmed_transactions.any (fun t => txMatches t sid course) = true
  · have hr : add_transaction sid name course grade now st = (false, st) := by
      simp only [add_transaction]
      rw [if_pos hdup]
    refine ⟨?_, ?_, hthird⟩
    · rw [hr]
      constructor
      · intro _
        exact List.any_eq_true.mp hdup
      · intro _
        exact ⟨rfl, rfl⟩
    · rw [hr]
      intro h
      exact absurd h (by simp)
  · have hr : add_transaction sid name course grade now st =
        (true, { st with unconfirmed_transactions :=
          st.unconfirmed_transactions ++ [mkTx sid name course grade now] }) := by
      simp only [add_transaction]
      rw [if_neg hdup]
    refine ⟨?_, ?_, hthird⟩
    · rw [hr]
      constructor
      · intro ⟨h1, _⟩
        exact absurd h1 (by simp)
      · intro ⟨t, ht, hmt⟩
        exact absurd (List.any_eq_true.mpr ⟨t, ht, hmt⟩) hdup
    · rw [hr]
      intro _
      exact ⟨rfl, rfl⟩

/-- Witness for duplicate rejection: with (S1, Math) pending (under a
different name and grade), resubmission is rejected; after mining clears
the pool, the same pair is accepted again. -/
theorem add_transaction_contract_witness :
    (add_transaction "S1" "Bob" "Math" "F" 99 st0).1 = false ∧
    (add_transaction "S1" "Bob" "Math" "F" 99 st1).1 = true := by
  have h := add_transaction_contract toySha "S1" "Bob" "Math" "F" 99 st0
  refine ⟨(h.1.mpr ⟨mkTx "S1" "Alice" "Math" "A" 10, by decide, by decide⟩).1, ?_⟩
  exact h.2.2 0 "1" minedB rfl

/-! ### Canonical encoding determinism (order independence) -/

theorem string_data_inj (a b : String) (h : a.data = b.data) : a = b := by
  cases a
  cases b
  exact congrArg String.mk h

theorem charListLe_antisymm : ∀ (x y : List Char),
    charListLe x y = true → charListLe y x = true → x = y
  | [], [], _, _ => rfl
  | [], _ :: _, _, h2 => by simp [charListLe] at h2
  | _ :: _, [], h1, _ => by simp [charListLe] at h1
  | a :: as, b :: bs, h1, h2 => by
    by_cases hab : a.toNat < b.toNat
    · rw [show charListLe (b :: bs) (a :: as) =
        (if b.toNat < a.toNat then true else if a.toNat < b.toNat then false
          else charListLe bs as) from rfl] at h2
      rw [if_neg (by omega), if_pos hab] at h2
      exact absurd h2 (by simp)
    · by_cases hba : b.toNat < a.toNat
      · rw [show charListLe (a :: as) (b :: bs) =
          (if a.toNat < b.toNat then true else if b.toNat < a.toNat then false
            else charListLe as bs) from rfl] at h1
        rw [if_neg hab, if_pos hba] at h1
        exact absurd h1 (by simp)
      · have hc : a = b := Char.ext (UInt32.ext (show a.toNat = b.toNat by omega))
        subst hc
        rw [show charListLe (a :: as) (a :: bs) =
          (if a.toNat < a.toNat then true else if a.toNat < a.toNat then false
            else charListLe as bs) from rfl] at h1
        rw [if_neg (by omega), if_neg (by omega)] at h1
        rw [show charListLe (a :: bs) (a :: as) =
          (if a.toNat < a.toNat then true else if a.toNat < a.toNat then false
            else charListLe bs as) from rfl] at h2
        rw [if_neg (by omega), if_neg (by omega)] at h2
        rw [charListLe_antisymm as bs h1 h2]

theorem keyLe_antisymm (a b : String × JVal) (h1 : keyLe a b) (h2 : keyLe b a) :
    a.1 = b.1 :=
  string_data_inj _ _ (charListLe_antisymm a.1.data b.1.data h1 h2)

/-- A sorted list with duplicate-free keys is determined by its multiset
of items. -/
theorem sorted_perm_nodup_eq : ∀ (l1 l2 : Obj), List.Perm l1 l2 →
    List.Sorted keyLe l1 → List.Sorted keyLe l2 → (l1.map Prod.fst).Nodup → l1 = l2
  | [], l2, hp, _, _, _ => by
    rw [List.Perm.nil_eq hp]
  | a :: t1, l2, hp, hs1, hs2, hnd => by
    have hmem : a ∈ l2 := hp.subset (List.mem_cons_self a t1)
    cases l2 with
    | nil => exact absurd (List.Perm.symm hp) (by simp)
    | cons b t2 =>
      have hb : b ∈ a :: t1 := (List.Perm.symm hp).subset (List.mem_cons_self b t2)
      have hab : a = b := by
        rcases List.mem_cons.mp hmem with h | h
        · exact h
        · rcases List.mem_cons.mp hb with h2 | h2
          · exact h2.symm
          · -- a strictly inside t2 and b strictly inside t1: keys must agree
            have hle1 : keyLe b a := (List.sorted_cons.mp hs2).1 a h
            have hle2 : keyLe a b := (List.sorted_cons.mp hs1).1 b h2
            have hkey : a.1 = b.1 := keyLe_antisymm a b hle2 hle1
            -- but a is in the tail t1 would contradict nodup; derive a = b anyway:
            -- b in t1 with key equal to a, and nodup of a.1 :: (t1.map fst)
            have hnd2 := hnd
            rw [List.map_cons] at hnd2
            have := (List.nodup_cons.mp hnd2).1
            exact absurd (hkey ▸ (List.mem_map_of_mem Prod.fst h2)) this
      subst hab
      have hperm : List.Perm t1 t2 := (List.perm_cons a).mp hp
      have ht1 : List.Sorted keyLe t1 := (List.sorted_cons.mp hs1).2
      have ht2 : List.Sorted keyLe t2 := (List.sorted_cons.mp hs2).2
      have hndt : (t1.map Prod.fst).Nodup := by
        rw [List.map_cons] at hnd
        exact (List.nodup_cons.mp hnd).2
      rw [sorted_perm_nodup_eq t1 t2 hperm ht1 ht2 hndt]

theorem sortByKey_eq_of_perm (o1 o2 : Obj) (hp : List.Perm o1 o2)
    (hnd : (o1.map Prod.fst).Nodup) : sortByKey o1 = sortByKey o2 := by
  apply sorted_perm_nodup_eq
  · exact ((List.perm_insertionSort keyLe o1).trans hp).trans
      (List.perm_insertionSort keyLe o2).symm
  · exact List.sorted_insertionSort keyLe o1
  · exact List.sorted_insertionSort keyLe o2
  · exact ((List.perm_insertionSort keyLe o1).map Prod.fst).nodup_iff.mpr hnd

/-- C8: Canonical-encoding determinism: the encoder is a pure function,
and for dicts holding the same key/value content in any insertion order
(keys duplicate-free, as Python dict keys are) it yields identical bytes;
consequently merkle_root is identical across runs and across pointwise
reordering of every record. -/
theorem canonical_deterministic (sha : String → String) :
    (∀ o1 o2 : Obj, List.Perm o1 o2 → (o1.map Prod.fst).Nodup →
      canonical o1 = canonical o2) ∧
    (∀ items1 items2 : List Obj,
      List.Forall₂ (fun a b => List.Perm a b ∧ (a.map Prod.fst).Nodup) items1 items2 →
      merkle_root sha items1 = merkle_root sha items2) := by
  have hcanon : ∀ o1 o2 : Obj, List.Perm o1 o2 → (o1.map Prod.fst).Nodup →
      canonical o1 = canonical o2 := by
    intro o1 o2 hp hnd
    unfold canonical
    rw [sortByKey_eq_of_perm o1 o2 hp hnd]
  refine ⟨hcanon, ?_⟩
  intro items1 items2 hf
  have hmap : items1.map (fun x => sha (canonical x)) =
      items2.map (fun x => sha (canonical x)) := by
    induction hf with
    | nil => rfl
    | @cons a b t1 t2 hab htail ih =>
      rw [List.map_cons, List.map_cons, ih, hcanon a b hab.1 hab.2]
  have hleaves : leavesOf sha items1 = leavesOf sha items2 := by
    cases hf with
    | nil => rfl
    | cons hab htail =>
      rw [leavesOf_ne_nil sha _ (by simp), leavesOf_ne_nil sha _ (by simp)]
      exact hmap
  unfold merkle_root merkle_layers
  rw [hleaves]

/-- Witness for canonical determinism: the same two-field record built in
both insertion orders, and the corresponding one-record roots. -/
theorem canonical_deterministic_witness :
    canonical [("b", JVal.int 1), ("a", JVal.str "x")] =
      canonical [("a", JVal.str "x"), ("b", JVal.int 1)] ∧
    merkle_root toySha [[("b", JVal.int 1), ("a", JVal.str "x")]] =
      merkle_root toySha [[("a", JVal.str "x"), ("b", JVal.int 1)]] := by
  have h := canonical_deterministic toySha
  refine ⟨h.1 _ _ (by decide) (by decide), ?_⟩
  exact h.2 _ _ (List.Forall₂.cons ⟨by decide, by decide⟩ List.Forall₂.nil)

/-! ### Decimal encoding is injective; digit characters avoid delimiters -/

theorem hexVal_hexDigit : ∀ k, k < 16 → hexVal (hexDigit k) = k := by decide

theorem decValAux_append (l1 : List Char) : ∀ (acc : Nat) (l2 : List Char),
    decValAux acc (l1 ++ l2) = decValAux (decValAux acc l1) l2 := by
  induction l1 with
  | nil => intro acc l2; rfl
  | cons c r ih => intro acc l2; exact ih (acc * 10 + hexVal c) l2

theorem decValAux_natDecFuel : ∀ (fuel n : Nat), n < fuel →
    decValAux 0 (natDecFuel fuel n) = n := by
  intro fuel
  induction fuel with
  | zero => intro n h; omega
  | succ f ih =>
    intro n h
    by_cases h10 : n < 10
    · simp only [natDecFuel]
      rw [if_pos h10]
      show decValAux (0 * 10 + hexVal (hexDigit n)) [] = n
      rw [hexVal_hexDigit n (by omega)]
      show 0 * 10 + n = n
      omega
    · simp only [natDecFuel]
      rw [if_neg h10, decValAux_append, ih (n / 10) (by omega)]
      show (n / 10) * 10 + hexVal (hexDigit (n % 10)) = n
      rw [hexVal_hexDigit (n % 10) (by omega)]
      omega

theorem natDec_inj (m n : Nat) (h : natDec m = natDec n) : m = n := by
  have h1 := decValAux_natDecFuel (m + 1) m (by omega)
  have h2 := decValAux_natDecFuel (n + 1) n (by omega)
  unfold natDec at h
  rw [h, h2] at h1
  omega

theorem hexDigit_toNat : ∀ k, k < 16 →
    (hexDigit k).toNat = if k < 10 then 48 + k else 87 + k := by decide

theorem natDecFuel_digits : ∀ (fuel n : Nat) (c : Char), c ∈ natDecFuel fuel n →
    48 ≤ c.toNat ∧ c.toNat ≤ 57 := by
  intro fuel
  induction fuel with
  | zero =>
    intro n c hc
    simp [natDecFuel] at hc
  | succ f ih =>
    intro n c hc
    simp only [natDecFuel] at hc
    by_cases h10 : n < 10
    · rw [if_pos h10] at hc
      simp only [List.mem_singleton] at hc
      subst hc
      rw [hexDigit_toNat n (by omega), if_pos h10]
      omega
    · rw [if_neg h10] at hc
      rw [List.mem_append] at hc
      rcases hc with hc | hc
      · exact ih (n / 10) c hc
      · simp only [List.mem_singleton] at hc
        subst hc
        rw [hexDigit_toNat (n % 10) (by omega), if_pos (by omega)]
        omega

theorem natDec_ne_nil (n : Nat) : natDec n ≠ [] := by
  unfold natDec natDecFuel
  by_cases h10 : n < 10
  · rw [if_pos h10]
    simp
  · rw [if_neg h10]
    simp

theorem intDec_chars (i : Int) (c : Char) (hc : c ∈ intDec i) :
    c.toNat = 45 ∨ (48 ≤ c.toNat ∧ c.toNat ≤ 57) := by
  unfold intDec at hc
  split at hc
  · rcases List.mem_cons.mp hc with h | h
    · subst h
      left
      rfl
    · right
      exact natDecFuel_digits _ _ c h
  · right
    exact natDecFuel_digits _ _ c hc

theorem intDec_no_comma (i : Int) : ∀ x ∈ intDec i, x ≠ ',' := by
  intro x hx hc
  subst hc
  rcases intDec_chars i ',' hx with h | h
  · exact absurd h (by decide)
  · exact absurd h.1 (by decide)

theorem intDec_inj (i j : Int) (h : intDec i = intDec j) : i = j := by
  have hsign : ∀ a b : Int, a < 0 → ¬ b < 0 → '-' :: natDec (-a).toNat ≠ natDec b.toNat := by
    intro a b _ _ hcontra
    cases hnd : natDec b.toNat with
    | nil => exact natDec_ne_nil b.toNat hnd
    | cons d rest =>
      rw [hnd] at hcontra
      injection hcontra with h1 _
      have hd : d ∈ natDec b.toNat := by
        rw [hnd]
        exact List.mem_cons_self d rest
      have hdig := natDecFuel_digits _ _ d hd
      rw [← h1] at hdig
      exact absurd hdig.1 (by decide)
  unfold intDec at h
  by_cases hi : i < 0
  · by_cases hj : j < 0
    · rw [if_pos hi, if_pos hj] at h
      injection h with _ h
      have := natDec_inj _ _ h
      omega
    · rw [if_pos hi, if_neg hj] at h
      exact absurd h (hsign i j hi hj)
  · by_cases hj : j < 0
    · rw [if_neg hi, if_pos hj] at h
      exact absurd h.symm (hsign j i hj hi)
    · rw [if_neg hi, if_neg hj] at h
      have := natDec_inj _ _ h
      omega

/-- Splitting a concatenation at the first comma: if the prefixes are
comma-free and both remainders start with a comma, the two factorizations
coincide. -/
theorem append_split_stop : ∀ (a b r1 r2 : List Char),
    (∀ x ∈ a, x ≠ ',') → (∀ x ∈ b, x ≠ ',') →
    r1.head? = some ',' → r2.head? = some ',' →
    a ++ r1 = b ++ r2 → a = b ∧ r1 = r2
  | [], [], r1, r2, _, _, _, _, h => ⟨rfl, h⟩
  | [], y :: b2, r1, r2, _, hb, h1, _, h => by
    simp only [List.nil_append, List.cons_append] at h
    rw [h] at h1
    simp only [List.head?] at h1
    injection h1 with h1
    exact absurd h1 (hb y (List.mem_cons_self y b2))
  | x :: a2, [], r1, r2, ha, _, _, h2, h => by
    simp only [List.nil_append, List.cons_append] at h
    rw [← h] at h2
    simp only [List.head?] at h2
    injection h2 with h2
    exact absurd h2 (ha x (List.mem_cons_self x a2))
  | x :: a2, y :: b2, r1, r2, ha, hb, h1, h2, h => by
    simp only [List.cons_append] at h
    injection h with hxy h
    obtain ⟨e1, e2⟩ := append_split_stop a2 b2 r1 r2
      (fun z hz => ha z (List.mem_cons_of_mem x hz))
      (fun z hz => hb z (List.mem_cons_of_mem y hz)) h1 h2 h
    exact ⟨by rw [hxy, e1], e2⟩

/-! ### String-level append cancellation -/

theorem data_mk (l : List Char) : (String.mk l).data = l := rfl

theorem strAppend_cancel_left (a b c : String) (h : a ++ b = a ++ c) : b = c := by
  apply string_data_inj
  have hd := congrArg String.data h
  rw [String.data_append, String.data_append] at hd
  exact List.append_cancel_left hd

theorem strAppend_cancel_right (a b c : String) (h : a ++ c = b ++ c) : a = b := by
  apply string_data_inj
  have hd := congrArg String.data h
  rw [String.data_append, String.data_append] at hd
  exact List.append_cancel_right hd


/-! ### The escape encoder has a left inverse, hence is injective -/

theorem fromHex4_toHex4 (n : Nat) (h : n < 65536) :
    fromHex4 (hexDigit (n / 4096 % 16)) (hexDigit (n / 256 % 16))
      (hexDigit (n / 16 % 16)) (hexDigit (n % 16)) = n := by
  unfold fromHex4
  rw [hexVal_hexDigit _ (by omega), hexVal_hexDigit _ (by omega),
      hexVal_hexDigit _ (by omega), hexVal_hexDigit _ (by omega)]
  omega

theorem char_range (c : Char) : c.toNat < 55296 ∨ (57343 < c.toNat ∧ c.toNat < 1114112) := by
  have h := c.valid
  unfold UInt32.isValidChar Nat.isValidChar at h
  have he : c.toNat = c.val.toNat := rfl
  rw [he]
  omega

theorem decodeStr_step_raw (f : Nat) (c : Char) (X : List Char)
    (h1 : ¬ c = '"') (h2 : ¬ c = '\\') :
    decodeStr (f + 1) (c :: X) = (decodeStr f X).map (consFst c) := by
  show (if c = '"' then some ([], X) else if c = '\\' then _
    else (decodeStr f X).map (consFst c)) = _
  rw [if_neg h1, if_neg h2]

theorem decodeStr_step_u (f : Nat) (d1 d2 d3 d4 : Char) (X : List Char)
    (hns : ¬ (55296 ≤ fromHex4 d1 d2 d3 d4 ∧ fromHex4 d1 d2 d3 d4 < 56320)) :
    decodeStr (f + 1) ('\\' :: 'u' :: d1 :: d2 :: d3 :: d4 :: X) =
      (decodeStr f X).map (consFst (Char.ofNat (fromHex4 d1 d2 d3 d4))) := by
  show (if 55296 ≤ fromHex4 d1 d2 d3 d4 ∧ fromHex4 d1 d2 d3 d4 < 56320 then _
    else (decodeStr f X).map (consFst (Char.ofNat (fromHex4 d1 d2 d3 d4)))) = _
  rw [if_neg hns]

theorem decodeStr_step_surrogate (f : Nat) (d1 d2 d3 d4 g1 g2 g3 g4 : Char) (X : List Char)
    (hs : 55296 ≤ fromHex4 d1 d2 d3 d4 ∧ fromHex4 d1 d2 d3 d4 < 56320)
    (hlo : 56320 ≤ fromHex4 g1 g2 g3 g4 ∧ fromHex4 g1 g2 g3 g4 < 57344) :
    decodeStr (f + 1)
        ('\\' :: 'u' :: d1 :: d2 :: d3 :: d4 :: '\\' :: 'u' :: g1 :: g2 :: g3 :: g4 :: X) =
      (decodeStr f X).map (consFst (Char.ofNat (65536 +
        (fromHex4 d1 d2 d3 d4 - 55296) * 1024 + (fromHex4 g1 g2 g3 g4 - 56320)))) := by
  show (if 55296 ≤ fromHex4 d1 d2 d3 d4 ∧ fromHex4 d1 d2 d3 d4 < 56320 then
      (if ('\\' : Char) = '\\' ∧ ('u' : Char) = 'u' ∧ 56320 ≤ fromHex4 g1 g2 g3 g4 ∧
          fromHex4 g1 g2 g3 g4 < 57344 then
        (decodeStr f X).map (consFst (Char.ofNat (65536 +
          (fromHex4 d1 d2 d3 d4 - 55296) * 1024 + (fromHex4 g1 g2 g3 g4 - 56320))))
      else none)
    else _) = _
  rw [if_pos hs, if_pos ⟨rfl, rfl, hlo.1, hlo.2⟩]

/-- Decoding inverts escaping: parsing the escaped content followed by a
closing quote recovers the original characters and the remainder. -/
theorem decodeStr_escList : ∀ (s : List Char) (fuel : Nat) (r : List Char), s.length < fuel →
    decodeStr fuel (escList s ++ '"' :: r) = some (s, r) := by
  intro s
  induction s with
  | nil =>
    intro fuel r hf
    obtain ⟨f, rfl⟩ : ∃ f, fuel = f + 1 := ⟨fuel - 1, by omega⟩
    rfl
  | cons c t ih =>
    intro fuel r hf
    obtain ⟨f, rfl⟩ : ∃ f, fuel = f + 1 := ⟨fuel - 1, by omega⟩
    have hft : t.length < f := by
      simp only [List.length_cons] at hf
      omega
    rw [show escList (c :: t) = escChar c ++ escList t from rfl, List.append_assoc]
    by_cases h1 : c = '"'
    · subst h1
      rw [show escChar '"' = ['\\', '"'] from rfl]
      show (decodeStr f (escList t ++ '"' :: r)).map (consFst '"') = some ('"' :: t, r)
      rw [ih f r hft]
      rfl
    by_cases h2 : c = '\\'
    · subst h2
      rw [show escChar '\\' = ['\\', '\\'] from rfl]
      show (decodeStr f (escList t ++ '"' :: r)).map (consFst '\\') = some ('\\' :: t, r)
      rw [ih f r hft]
      rfl
    by_cases h3 : c = '\n'
    · subst h3
      rw [show escChar '\n' = ['\\', 'n'] from rfl]
      show (decodeStr f (escList t ++ '"' :: r)).map (consFst '\n') = some ('\n' :: t, r)
      rw [ih f r hft]
      rfl
    by_cases h4 : c = '\r'
    · subst h4
      rw [show escChar '\r' = ['\\', 'r'] from rfl]
      show (decodeStr f (escList t ++ '"' :: r)).map (consFst '\r') = some ('\r' :: t, r)
      rw [ih f r hft]
      rfl
    by_cases h5 : c = '\t'
    · subst h5
      rw [show escChar '\t' = ['\\', 't'] from rfl]
      show (decodeStr f (escList t ++ '"' :: r)).map (consFst '\t') = some ('\t' :: t, r)
      rw [ih f r hft]
      rfl
    by_cases h6 : c = '\x08'
    · subst h6
      rw [show escChar '\x08' = ['\\', 'b'] from rfl]
      show (decodeStr f (escList t ++ '"' :: r)).map (consFst '\x08') = some ('\x08' :: t, r)
      rw [ih f r hft]
      rfl
    by_cases h7 : c = '\x0c'
    · subst h7
      rw [show escChar '\x0c' = ['\\', 'f'] from rfl]
      show (decodeStr f (escList t ++ '"' :: r)).map (consFst '\x0c') = some ('\x0c' :: t, r)
      rw [ih f r hft]
      rfl
    by_cases h8 : c.toNat < 32 ∨ 127 ≤ c.toNat
    · by_cases h9 : c.toNat < 65536
      · have hesc : escChar c = '\\' :: 'u' :: toHex4 c.toNat := by
          unfold escChar
          rw [if_neg h1, if_neg h2, if_neg h3, if_neg h4, if_neg h5, if_neg h6, if_neg h7,
              if_pos h8, if_pos h9]
        rw [hesc]
        simp only [toHex4, List.cons_append, List.nil_append]
        rw [decodeStr_step_u f _ _ _ _ _ (by
          rw [fromHex4_toHex4 c.toNat h9]
          rcases char_range c with hv | hv
          · omega
          · omega)]
        rw [fromHex4_toHex4 c.toNat h9, Char.ofNat_toNat, ih f r hft]
        rfl
      · have hesc : escChar c =
            ('\\' :: 'u' :: toHex4 (55296 + (c.toNat - 65536) / 1024)) ++
            ('\\' :: 'u' :: toHex4 (56320 + (c.toNat - 65536) % 1024)) := by
          unfold escChar
          rw [if_neg h1, if_neg h2, if_neg h3, if_neg h4, if_neg h5, if_neg h6, if_neg h7,
              if_pos h8, if_neg h9]
        have hcv : c.toNat < 1114112 := by
          rcases char_range c with hv | hv
          · omega
          · omega
        rw [hesc]
        simp only [toHex4, List.cons_append, List.nil_append]
        rw [decodeStr_step_surrogate f _ _ _ _ _ _ _ _ _
          (by rw [fromHex4_toHex4 _ (by omega)]; omega)
          (by rw [fromHex4_toHex4 _ (by omega)]; omega)]
        rw [fromHex4_toHex4 _ (show 55296 + (c.toNat - 65536) / 1024 < 65536 by omega),
            fromHex4_toHex4 _ (show 56320 + (c.toNat - 65536) % 1024 < 65536 by omega)]
        rw [show 65536 + (55296 + (c.toNat - 65536) / 1024 - 55296) * 1024 +
            (56320 + (c.toNat - 65536) % 1024 - 56320) = c.toNat from by omega]
        rw [Char.ofNat_toNat, ih f r hft]
        rfl
    · have hesc : escChar c = [c] := by
        unfold escChar
        rw [if_neg h1, if_neg h2, if_neg h3, if_neg h4, if_neg h5, if_neg h6, if_neg h7,
            if_neg h8]
      rw [hesc]
      show decodeStr (f + 1) (c :: (escList t ++ '"' :: r)) = some (c :: t, r)
      rw [decodeStr_step_raw f c _ h1 h2, ih f r hft]
      rfl

/-- Escaping followed by a closing quote is a prefix code: equal encoded
streams have equal contents and equal remainders. -/
theorem escList_quote_inj (s1 s2 r1 r2 : List Char)
    (h : escList s1 ++ '"' :: r1 = escList s2 ++ '"' :: r2) : s1 = s2 ∧ r1 = r2 := by
  have h1 := decodeStr_escList s1 (s1.length + s2.length + 1) r1 (by omega)
  rw [h, decodeStr_escList s2 (s1.length + s2.length + 1) r2 (by omega)] at h1
  injection h1 with h1
  exact ⟨(congrArg Prod.fst h1).symm, (congrArg Prod.snd h1).symm⟩


/-! ### Injectivity of the canonical encoding on certificate records -/

theorem sortByKey_mkTx (sid n c g : String) (t : Int) :
    sortByKey (mkTx sid n c g t) =
      [("course", JVal.str c), ("grade", JVal.str g), ("issued_at", JVal.int t),
       ("name", JVal.str n), ("student_id", JVal.str sid)] := rfl

theorem canonical_mkTx_inj (sid1 n1 c1 g1 : String) (t1 : Int)
    (sid2 n2 c2 g2 : String) (t2 : Int)
    (h : canonical (mkTx sid1 n1 c1 g1 t1) = canonical (mkTx sid2 n2 c2 g2 t2)) :
    sid1 = sid2 ∧ n1 = n2 ∧ c1 = c2 ∧ g1 = g2 ∧ t1 = t2 := by
  have e1 : ("\x7b" : String).data = ['{'] := rfl
  have e2 : ("\"" : String).data = ['"'] := rfl
  have e3 : (":" : String).data = [':'] := rfl
  have e4 : ("," : String).data = [','] := rfl
  have e5 : ("\x7d" : String).data = ['}'] := rfl
  have k1 : escList ("course".data) = ['c', 'o', 'u', 'r', 's', 'e'] := rfl
  have k2 : escList ("grade".data) = ['g', 'r', 'a', 'd', 'e'] := rfl
  have k3 : escList ("issued_at".data) = ['i', 's', 's', 'u', 'e', 'd', '_', 'a', 't'] := rfl
  have k4 : escList ("name".data) = ['n', 'a', 'm', 'e'] := rfl
  have k5 : escList ("student_id".data) = ['s', 't', 'u', 'd', 'e', 'n', 't', '_', 'i', 'd'] := rfl
  have hd := congrArg String.data h
  simp only [canonical, sortByKey_mkTx, encItems, encItem, encVal, jstr,
    String.data_append, data_mk, e1, e2, e3, e4, e5, k1, k2, k3, k4, k5,
    List.cons_append, List.nil_append, List.append_assoc] at hd
  simp only [List.cons.injEq, eq_self_iff_true, true_and] at hd
  obtain ⟨hcv, hd⟩ := escList_quote_inj _ _ _ _ hd
  simp only [List.cons.injEq, eq_self_iff_true, true_and] at hd
  obtain ⟨hgv, hd⟩ := escList_quote_inj _ _ _ _ hd
  simp only [List.cons.injEq, eq_self_iff_true, true_and] at hd
  obtain ⟨htv, hd⟩ := append_split_stop _ _ _ _
    (intDec_no_comma t1) (intDec_no_comma t2) (by rfl) (by rfl) hd
  simp only [List.cons.injEq, eq_self_iff_true, true_and] at hd
  obtain ⟨hnv, hd⟩ := escList_quote_inj _ _ _ _ hd
  simp only [List.cons.injEq, eq_self_iff_true, true_and] at hd
  obtain ⟨hsv, -⟩ := escList_quote_inj _ _ _ _ hd
  exact ⟨string_data_inj _ _ hsv, string_data_inj _ _ hnv, string_data_inj _ _ hcv,
    string_data_inj _ _ hgv, intDec_inj t1 t2 htv⟩

/-! ### Tamper sensitivity -/

theorem foldDigest_append (sha : String → String) :
    ∀ (p q : List (String × String)) (h : String),
      foldDigest sha (p ++ q) h = foldDigest sha q (foldDigest sha p h)
  | [], _, _ => rfl
  | x :: p, q, h => by
    rw [List.cons_append, foldDigest_cons, foldDigest_cons]
    exact foldDigest_append sha p q _

theorem foldDigest_inj (sha : String → String) (hinj : ∀ x y, sha x = sha y → x = y) :
    ∀ (p : List (String × String)) (h1 h2 : String), h1 ≠ h2 →
      foldDigest sha p h1 ≠ foldDigest sha p h2
  | [], _, _, hne => hne
  | x :: p, h1, h2, hne => by
    rw [foldDigest_cons, foldDigest_cons]
    apply foldDigest_inj sha hinj p
    by_cases hdir : x.2 = "L"
    · rw [if_pos hdir, if_pos hdir]
      intro he
      exact hne (strAppend_cancel_left x.1 h1 h2 (hinj _ _ he))
    · rw [if_neg hdir, if_neg hdir]
      intro he
      exact hne (strAppend_cancel_right h1 h2 x.1 (hinj _ _ he))

/-- C2: Tamper sensitivity (under the standard idealization of SHA-256 as
an injective function): changing any field of the leaf certificate, or
any sibling digest in the proof (in particular any single byte of it), or
the claimed root, turns a verifying proof into a failing one. -/
theorem tamper_sensitivity (sha : String → String)
    (hinj : ∀ x y, sha x = sha y → x = y) :
    (∀ (sid1 n1 c1 g1 : String) (t1 : Int) (sid2 n2 c2 g2 : String) (t2 : Int)
        (p : List (String × String)) (root : String),
      (sid1, n1, c1, g1, t1) ≠ (sid2, n2, c2, g2, t2) →
      verify_merkle_proof sha (mkTx sid1 n1 c1 g1 t1) p root = true →
      verify_merkle_proof sha (mkTx sid2 n2 c2 g2 t2) p root = false) ∧
    (∀ (leaf : Obj) (pre post : List (String × String)) (sib sib2 dir : String)
        (root : String),
      sib2 ≠ sib →
      verify_merkle_proof sha leaf (pre ++ (sib, dir) :: post) root = true →
      verify_merkle_proof sha leaf (pre ++ (sib2, dir) :: post) root = false) ∧
    (∀ (leaf : Obj) (p : List (String × String)) (root root2 : String),
      root2 ≠ root →
      verify_merkle_proof sha leaf p root = true →
      verify_merkle_proof sha leaf p root2 = false) := by
  refine ⟨?_, ?_, ?_⟩
  · intro sid1 n1 c1 g1 t1 sid2 n2 c2 g2 t2 p root hne hv
    unfold verify_merkle_proof at hv ⊢
    rw [decide_eq_true_eq] at hv
    rw [decide_eq_false_iff_not]
    intro hv2
    have hcne : canonical (mkTx sid1 n1 c1 g1 t1) ≠ canonical (mkTx sid2 n2 c2 g2 t2) := by
      intro hc
      obtain ⟨e1, e2, e3, e4, e5⟩ := canonical_mkTx_inj _ _ _ _ _ _ _ _ _ _ hc
      exact hne (by rw [e1, e2, e3, e4, e5])
    have hsne : sha (canonical (mkTx sid1 n1 c1 g1 t1)) ≠
        sha (canonical (mkTx sid2 n2 c2 g2 t2)) := fun he => hcne (hinj _ _ he)
    exact foldDigest_inj sha hinj p _ _ hsne (hv.trans hv2.symm)
  · intro leaf pre post sib sib2 dir root hne hv
    unfold verify_merkle_proof at hv ⊢
    rw [decide_eq_true_eq] at hv
    rw [decide_eq_false_iff_not]
    intro hv2
    rw [foldDigest_append] at hv hv2
    rw [foldDigest_cons] at hv hv2
    refine foldDigest_inj sha hinj post _ _ ?_ (hv2.trans hv.symm)
    by_cases hdir : dir = "L"
    · show (if (sib2, dir).2 = "L" then _ else _) ≠ _
      rw [if_pos hdir, if_pos hdir]
      intro he
      exact hne (strAppend_cancel_right sib2 sib _ (hinj _ _ he))
    · show (if (sib2, dir).2 = "L" then _ else _) ≠ _
      rw [if_neg hdir, if_neg hdir]
      intro he
      exact hne (strAppend_cancel_left _ sib2 sib (hinj _ _ he))
  · intro leaf p root root2 hne hv
    unfold verify_merkle_proof at hv ⊢
    rw [decide_eq_true_eq] at hv
    rw [decide_eq_false_iff_not]
    intro hv2
    exact hne (hv2.symm.trans hv)

theorem toySha_inj : ∀ x y : String, toySha x = toySha y → x = y := by
  intro x y h
  exact strAppend_cancel_left "#" x y h

/-- Witness for tamper sensitivity: with the injective stand-in hash, a
verifying single-leaf proof stops verifying when the grade is changed. -/
theorem tamper_sensitivity_witness :
    verify_merkle_proof toySha (mkTx "S1" "Alice" "Math" "B" 10) []
      (toySha (canonical (mkTx "S1" "Alice" "Math" "A" 10))) = false := by
  have h := tamper_sensitivity toySha toySha_inj
  exact h.1 "S1" "Alice" "Math" "A" 10 "S1" "Alice" "Math" "B" 10 []
    (toySha (canonical (mkTx "S1" "Alice" "Math" "A" 10))) (by decide) (by decide)

end MCB
